import Mathlib

/-!
Verification development for the in-memory node-graph model of the CRIPT
Python SDK (`cript/nodes/core.py` and related files).

The object graph is embedded as an explicit heap: node instances are
identified by natural-number identifiers (Python object identity becomes
identifier equality), and a `Store` maps each identifier to the node's
attribute record (`_json_attrs`), a list of named field values in
declaration order.  Field values are strings, `None`, scalar node
references, lists of strings, or lists of node references, which covers
every field shape occurring in the repository.
-/

/-- A single attribute value of a node's `_json_attrs` record. -/
inductive AVal where
  | aStr (s : String)
  | aNone
  | aNode (id : Nat)
  | aStrList (l : List String)
  | aNodeList (l : List Nat)
deriving DecidableEq, Repr

/-- A node's attribute record: named fields in declaration order. -/
abbrev Attrs := List (String × AVal)

/-- The heap: node identifier to attribute record. -/
abbrev Store := List (Nat × Attrs)

/-- Value of a named field of a record, `none` when the field is absent. -/
def lookupField (attrs : Attrs) (k : String) : Option AVal :=
  (attrs.find? (fun kv => kv.1 == k)).map (fun kv => kv.2)

/-- The record of a node in the store; a missing identifier yields the empty record. -/
def nodeAttrs (store : Store) (nid : Nat) : Attrs :=
  ((store.find? (fun kv => kv.1 == nid)).map (fun kv => kv.2)).getD []

/-- `asdict(node._json_attrs).get(key)` followed by the wrap-into-list
normalisation of `is_attr_present`: a non-list value becomes a one-element
list, a missing key becomes `[None]`. -/
def attrListOf (store : Store) (nid : Nat) (k : String) : List AVal :=
  match lookupField (nodeAttrs store nid) k with
  | none => [.aNone]
  | some (.aStrList l) => l.map .aStr
  | some (.aNodeList l) => l.map .aNode
  | some v => [v]

/-- Identifiers of child nodes held by one field value (both the scalar
`BaseNode` case and the list case of the duck-typed descent). -/
def fieldChildIds : AVal → List Nat
  | .aNode i => [i]
  | .aNodeList l => l
  | _ => []

/-- All child identifiers of a node, fields in declaration order: the values
into which `find_children` recurses after the wrap-into-list normalisation
(strings and `None` raise `AttributeError` and are skipped). -/
def childIds (store : Store) (nid : Nat) : List Nat :=
  ((nodeAttrs store nid).map (fun kv => fieldChildIds kv.2)).flatten

/-- Child identifiers reached by `_has_cycle`: only scalar fields that are
themselves nodes (`isinstance(value, BaseNode)`); list-valued fields are
not descended into. -/
def scalarChildIds (store : Store) (nid : Nat) : List Nat :=
  ((nodeAttrs store nid).map (fun kv =>
    match kv.2 with
    | .aNode i => [i]
    | _ => [])).flatten

/-- A single search criterion value: either a plain value or a nested
criteria dictionary (matched against node-valued attributes). -/
inductive SVal where
  | prim (s : String)
  | nested (c : List (String × List SVal))

/-- A criteria dictionary as passed to `find_children`: each key maps to the
list of requested values (the code wraps a non-list value into a
one-element list). -/
abbrev Criteria := List (String × List SVal)

mutual

/-- Whether a node satisfies all entries of a criteria dictionary: the body
of `find_children` counts the keys for which `is_attr_present` holds and
compares with the number of keys. -/
def matchesCrit (store : Store) (nid : Nat) : Criteria → Bool
  | [] => true
  | (k, vs) :: rest =>
    (numFound store (attrListOf store nid k) vs == vs.length) &&
      matchesCrit store nid rest
termination_by c => (sizeOf c, 0)
decreasing_by all_goals (simp_wf; omega)

/-- `number_values_found` of `is_attr_present`: how many requested values are
present in the (normalised) attribute list.  `is_attr_present` returns true
when this count equals the number of requested values. -/
def numFound (store : Store) (attrs : List AVal) : List SVal → Nat
  | [] => 0
  | v :: vs => (if matchOne store attrs v then 1 else 0) + numFound store attrs vs
termination_by vs => (sizeOf vs, 0)
decreasing_by all_goals (simp_wf; omega)

/-- Whether one requested value is found in the attribute list: a plain value
by `v in attr_key` (Python `==`; node attributes never equal a plain value
and a criteria dictionary never equals an attribute), a nested dictionary by
a depth-0 `find_children` self-match on some node-valued attribute. -/
def matchOne (store : Store) (attrs : List AVal) : SVal → Bool
  | .prim s => attrs.contains (.aStr s)
  | .nested c => nestedAny store c attrs
termination_by v => (sizeOf v, 0)
decreasing_by all_goals (simp_wf; omega)

/-- The inner loop of `is_attr_present` for a dictionary value: an OR over
the attribute list, succeeding as soon as one node-valued attribute matches
the nested criteria with recursion depth 0. -/
def nestedAny (store : Store) (c : Criteria) : List AVal → Bool
  | [] => false
  | .aNode cid :: rest => matchesCrit store cid c || nestedAny store c rest
  | _ :: rest => nestedAny store c rest
termination_by attrs => (sizeOf c, attrs.length + 1)
decreasing_by all_goals (simp_wf; omega)

end

mutual

/-- `BaseNode.find_children`, with an explicit fuel argument bounding the
recursion depth (the Python recursion is bounded by the growth of the shared
`handled_nodes` list; fuel sufficiency is proved below).  Returns the final
visited list together with the found children.  A node already in
`handled_nodes` returns `[]` at once; otherwise the node is appended to the
visited list, included in the results when it matches, and, unless
`search_depth` is 0, every child of every field is searched at
`search_depth - 1` with the visited list threaded through. -/
def find_children_fuel (store : Store) (crit : Criteria) :
    Nat → Nat → Int → List Nat → Option (List Nat × List Nat)
  | 0, _, _, _ => none
  | fuel+1, nid, depth, handled =>
    if nid ∈ handled then some (handled, [])
    else
      let handled1 := handled ++ [nid]
      let selfRes := if matchesCrit store nid crit then [nid] else []
      if depth = 0 then some (handled1, selfRes)
      else
        match find_children_list store crit fuel (childIds store nid) (depth - 1) handled1 with
        | none => none
        | some (h, res) => some (h, selfRes ++ res)
termination_by fuel => (fuel, 0)

/-- The loop of `find_children` over the (normalised) child values of all
fields, in declaration order, appending each recursive result. -/
def find_children_list (store : Store) (crit : Criteria) :
    Nat → List Nat → Int → List Nat → Option (List Nat × List Nat)
  | _, [], _, handled => some (handled, [])
  | fuel, c :: cs, depth, handled =>
    match find_children_fuel store crit fuel c depth handled with
    | none => none
    | some (h1, res1) =>
      match find_children_list store crit fuel cs depth h1 with
      | none => none
      | some (h2, res2) => some (h2, res1 ++ res2)
termination_by fuel cs => (fuel, cs.length + 1)

end

/-- Every identifier mentioned anywhere in the store: node keys and all
referenced children.  Its length bounds how many distinct nodes a traversal
can visit. -/
def allIds (store : Store) : List Nat :=
  store.map (fun kv => kv.1) ++
    (store.map (fun kv => (kv.2.map (fun f => fieldChildIds f.2)).flatten)).flatten

/-- Sufficient fuel for `find_children_fuel` starting from an empty visited
list. -/
def fuelBound (store : Store) : Nat := (allIds store).length + 1

/-- `find_children(search_attr, search_depth)` on a node of the store, as the
user-facing call (fresh visited list), returning just the result list. -/
def find_children (store : Store) (crit : Criteria) (root : Nat) (depth : Int) :
    Option (List Nat) :=
  (find_children_fuel store crit (fuelBound store) root depth []).map (fun p => p.2)

mutual

/-- `BaseNode._has_cycle`, with fuel.  The node is reported cyclic when it is
already in the shared `handled_nodes` list; otherwise it is appended and the
walk recurses into exactly the scalar fields whose value is a node
(`isinstance(value, BaseNode)`); list-valued fields are not descended. -/
def has_cycle_fuel (store : Store) : Nat → Nat → List Nat → Option (List Nat × Bool)
  | 0, _, _ => none
  | fuel+1, nid, handled =>
    if nid ∈ handled then some (handled, true)
    else has_cycle_list store fuel (scalarChildIds store nid) (handled ++ [nid])
termination_by fuel => (fuel, 0)

/-- The loop of `_has_cycle` over scalar node fields, returning early on the
first detected cycle and otherwise threading the visited list. -/
def has_cycle_list (store : Store) : Nat → List Nat → List Nat → Option (List Nat × Bool)
  | _, [], handled => some (handled, false)
  | fuel, c :: cs, handled =>
    match has_cycle_fuel store fuel c handled with
    | none => none
    | some (h, true) => some (h, true)
    | some (h, false) => has_cycle_list store fuel cs h
termination_by fuel cs => (fuel, cs.length + 1)

end

/-- `BaseNode.validate`: schema check against the external collaborator
(abstracted as a boolean), then the cycle check over the subgraph. -/
def validate (store : Store) (nid : Nat) (schema_ok : Bool) (fuel : Nat) :
    Option (Except String Unit) :=
  if schema_ok = false then some (.error "CRIPTNodeSchemaError")
  else
    match has_cycle_fuel store fuel nid [] with
    | none => none
    | some (_, true) => some (.error "CRIPTNodeCycleError")
    | some (_, false) => some (.ok ())

/-- Reachability along `find_children`-style child references (scalar node
fields and list elements alike). -/
inductive Reaches (store : Store) : Nat → Nat → Prop where
  | refl (x : Nat) : Reaches store x x
  | head {x y z : Nat} : y ∈ childIds store x → Reaches store y z → Reaches store x z

/-- Depth-indexed reachability: the paths the `search_depth` counter lets
`find_children` follow.  A step is allowed only while the counter is nonzero
and decrements it; negative counters are never zero, hence unbounded. -/
inductive ReachesD (store : Store) : Nat → Nat → Int → Prop where
  | refl (x : Nat) (d : Int) : ReachesD store x x d
  | head {x y z : Nat} {d : Int} : d ≠ 0 → y ∈ childIds store x →
      ReachesD store y z (d - 1) → ReachesD store x z d

/-- Reachability with an explicit bound on the number of steps. -/
inductive ReachesN (store : Store) : Nat → Nat → Nat → Prop where
  | refl (x n : Nat) : ReachesN store x x n
  | head {x y z n : Nat} : y ∈ childIds store x → ReachesN store y z n →
      ReachesN store x z (n + 1)

/-- The cycle condition of the specification for the subgraph rooted at
`root`: some node of the subgraph is reachable from itself by at least one
step. -/
def CycleFrom (store : Store) (root : Nat) : Prop :=
  ∃ n y, Reaches store root n ∧ y ∈ childIds store n ∧ Reaches store y n


/-- Replace one named field of a record with a new value, the other fields
unchanged (`dataclasses.replace`). -/
def setField (attrs : Attrs) (k : String) (v : AVal) : Attrs :=
  attrs.map (fun kv => if kv.1 == k then (kv.1, v) else kv)

/-- A deterministic rendering of one attribute value.
Modelled from the spec: the JSON codec itself (`cript/nodes/util.py`) is not
part of the provided sources; the spec describes the node's externally
observable JSON as a deterministic document computed from the node's
attribute record, so byte-identity of the JSON is byte-identity of this
canonical rendering. -/
def renderAVal : AVal → String
  | .aStr s => "s:" ++ s
  | .aNone => "null"
  | .aNode i => "ref:" ++ toString i
  | .aStrList l => "slist:" ++ String.intercalate "," l
  | .aNodeList l => "nlist:" ++ String.intercalate "," (l.map toString)

/-- A deterministic rendering of a whole record (the externally observable
JSON document of a node, up to the injective encoding chosen here).
Modelled from the spec, see `renderAVal`. -/
def renderAttrs (attrs : Attrs) : String :=
  String.intercalate "|" (attrs.map (fun kv => kv.1 ++ "=" ++ renderAVal kv.2))

/-- `BaseNode._update_json_attrs_if_valid`: install the candidate record,
validate, and on failure restore the saved record and re-raise the same
error.  The result is the record the node is left with, together with the
propagated error, if any. -/
def update_json_attrs_if_valid (validateA : Attrs → Except String Unit)
    (old_attrs new_attrs : Attrs) : Attrs × Option String :=
  match validateA new_attrs with
  | .ok _ => (new_attrs, none)
  | .error e => (old_attrs, some e)

/-- The `Algorithm.key` property setter: it assigns the replaced record first
and only then calls `validate()`, so a validation failure leaves the new
record installed (no rollback), while the error still propagates. -/
def algorithm_set_key (validateA : Attrs → Except String Unit)
    (attrs : Attrs) (new_key : String) : Attrs × Option String :=
  let new_attrs := setField attrs "key" (.aStr new_key)
  match validateA new_attrs with
  | .ok _ => (new_attrs, none)
  | .error e => (new_attrs, some e)

/-- The `SoftwareConfiguration.algorithms` property setter: builds the
replaced record and commits it through `_update_json_attrs_if_valid`. -/
def software_configuration_set_algorithms (validateA : Attrs → Except String Unit)
    (attrs : Attrs) (new_algorithms : List Nat) : Attrs × Option String :=
  update_json_attrs_if_valid validateA attrs
    (setField attrs "algorithms" (.aNodeList new_algorithms))

/-- The inner list loop of `remove_child`: iterate over the elements of the
original list value while deleting from the working copy at the index of the
original list; `none` models the `IndexError` that `del new_attr_list[i]`
raises when the index is out of range of the already-shrunk copy.  The loop
has no break statement, so later occurrences are also processed. -/
def del_loop (child : Nat) : List Nat → Nat → List Nat → Bool → Option (List Nat × Bool)
  | [], _, cur, found => some (cur, found)
  | x :: rest, i, cur, found =>
    if x = child then
      if i < cur.length then del_loop child rest (i + 1) (cur.eraseIdx i) true
      else none
    else del_loop child rest (i + 1) cur found

/-- The field loop of `remove_child`, building the candidate record: a scalar
field that is the child is replaced by the class default and the loop
continues (no break in that branch); a list field containing the child gets
the inner deletion loop and, when the child was found, the loop breaks with
the remaining fields unchanged.  Strings are skipped, non-iterable values
raise `TypeError` which is passed over.  Returns the candidate record and
whether any replacement happened; `none` is a propagated `IndexError`. -/
def remove_child_loop (child : Nat) (defaults : Attrs) : Attrs → Option (Attrs × Bool)
  | [] => some ([], false)
  | (f, v) :: rest =>
    match v with
    | .aNode i =>
      if i = child then
        match remove_child_loop child defaults rest with
        | none => none
        | some (r, _) => some ((f, (lookupField defaults f).getD .aNone) :: r, true)
      else
        match remove_child_loop child defaults rest with
        | none => none
        | some (r, c) => some ((f, v) :: r, c)
    | .aNodeList l =>
      match del_loop child l 0 l false with
      | none => none
      | some (newList, true) => some ((f, .aNodeList newList) :: rest, true)
      | some (_, false) =>
        match remove_child_loop child defaults rest with
        | none => none
        | some (r, c) => some ((f, v) :: r, c)
    | _ =>
      match remove_child_loop child defaults rest with
      | none => none
      | some (r, c) => some ((f, v) :: r, c)

/-- Outcome of `remove_child`: the boolean result, or the exception that
escaped (`IndexError` from the deletion loop, or the schema error re-raised
by `_update_json_attrs_if_valid`). -/
inductive RemoveOutcome where
  | removed
  | notFound
  | indexError
  | schemaError (e : String)
deriving DecidableEq, Repr

/-- `BaseNode.remove_child`: run the field loop; when no replacement was made
the candidate record is the original object and the call returns false
without validating; otherwise the candidate is committed through
`_update_json_attrs_if_valid`, whose failure rolls the node back.  The result
is the record the node is left with, together with the outcome. -/
def remove_child (validateA : Attrs → Except String Unit)
    (attrs defaults : Attrs) (child : Nat) : Attrs × RemoveOutcome :=
  match remove_child_loop child defaults attrs with
  | none => (attrs, .indexError)
  | some (new_attrs, changed) =>
    if changed = false then (attrs, .notFound)
    else
      match validateA new_attrs with
      | .ok _ => (new_attrs, .removed)
      | .error e => (attrs, .schemaError e)

/-- Identifiers referenced by any field of a record. -/
def refIds (attrs : Attrs) : List Nat :=
  (attrs.map (fun kv => fieldChildIds kv.2)).flatten

/-- Static description of a node class as `_from_json` sees it: its type
tag, the names of its constructor parameters (besides `self`), which of
those have no default value, whether the signature ends in `**kwargs`,
whether the body forwards those `**kwargs` to the no-argument
`BaseNode.__init__`, whether the body calls `super().__init__(node=...)`
against that no-argument `BaseNode.__init__`, which record fields the body
`replace`s, and the `JsonAttributes` fields with their class defaults. -/
structure ClassDesc where
  nodeType : String
  ctorParams : List String
  requiredParams : List String
  hasKwargs : Bool
  kwargsToSuper : Bool
  superGetsNode : Bool
  ctorStored : List String
  fields : List (String × AVal)

/-- Whether the decoded object carries a key naming no constructor
parameter. -/
def extra_keys (d : ClassDesc) (json : Attrs) : Bool :=
  json.any (fun kv => !(d.ctorParams.contains kv.1))

/-- Whether a constructor parameter without a default value is missing from
the decoded object. -/
def missing_required (d : ClassDesc) (json : Attrs) : Bool :=
  d.requiredParams.any (fun k => (lookupField json k).isNone)

/-- The record a successful constructor run leaves on the node:
`BaseNode.__init__` writes the type-tag list into `node`; the body then
`replace`s exactly the fields it stores (for `Algorithm` those are `key`,
`type` and `parameter` — its `replace` does not store `citation`) with the
bound argument: the decoded value when the key is present, the signature
default (which coincides with the class default) otherwise. -/
def ctor_record (d : ClassDesc) (json : Attrs) : Attrs :=
  d.fields.map (fun fd =>
    (fd.1,
      if fd.1 == "node" then .aStrList [d.nodeType]
      else if d.ctorStored.contains fd.1 then (lookupField json fd.1).getD fd.2
      else fd.2))

/-- Outcome of `cls(**json)`. -/
inductive CtorOutcome where
  | typeError
  | validationError (e : String)
  | ok (attrs : Attrs)
deriving DecidableEq, Repr

/-- `cls(**json)` on the classes of this repository.  `TypeError` arises at
argument binding, when a key names no constructor parameter and there is no
`**kwargs` or when a parameter without a default is missing; or inside the
body, when it calls `super().__init__(node=...)` against the no-argument
`BaseNode.__init__` (`Algorithm`, unconditionally) or forwards a non-empty
`**kwargs` to it (`SoftwareConfiguration`, whenever extra keys are
present).  Otherwise the body installs its record and calls
`self.validate()`, whose failure propagates. -/
def ctor_call (d : ClassDesc) (validateA : Attrs → Except String Unit)
    (json : Attrs) : CtorOutcome :=
  if !d.hasKwargs && extra_keys d json then .typeError
  else if missing_required d json then .typeError
  else if d.superGetsNode then .typeError
  else if d.hasKwargs && d.kwargsToSuper && extra_keys d json then .typeError
  else
    match validateA (ctor_record d json) with
    | .ok _ => .ok (ctor_record d json)
    | .error e => .validationError e

/-- The record built from `valid_keyword_dict` in `_from_json`:
`cls.JsonAttributes(**valid_keyword_dict)` takes, for every record field,
the decoded value when the key is present in the input object and the class
default otherwise. -/
def merged_record (d : ClassDesc) (json : Attrs) : Attrs :=
  d.fields.map (fun fd => (fd.1, (lookupField json fd.1).getD fd.2))

/-- Result of `_from_json`: the node's final record, a `TypeError` escaping
from `cls(**json)`, a validation error escaping from the constructor's own
`validate()` call, or a schema error from the final atomic replace, which
leaves the node on the constructor-produced record. -/
inductive FromJsonResult where
  | ok (attrs : Attrs)
  | typeError
  | ctorError (e : String)
  | schemaError (attrs : Attrs) (e : String)
deriving DecidableEq, Repr

/-- `BaseNode._from_json`: call `cls(**json)` with every key of the decoded
object, then install the full set of decoded record fields as one candidate
record through `_update_json_attrs_if_valid`, whose failure leaves the node
on the constructor-produced record. -/
def from_json (d : ClassDesc) (validateA : Attrs → Except String Unit)
    (json : Attrs) : FromJsonResult :=
  match ctor_call d validateA json with
  | .typeError => .typeError
  | .validationError e => .ctorError e
  | .ok ctorRec =>
    match validateA (merged_record d json) with
    | .ok _ => .ok (merged_record d json)
    | .error e => .schemaError ctorRec e

/-- Modelled from the spec: the specification's `_from_json` invokes the
constructor with only "whatever keys from the input object match constructor
parameters", so no `TypeError` can arise from extra keys; the constructor
semantics and the rest of the procedure are as in the code. -/
def from_json_spec (d : ClassDesc) (validateA : Attrs → Except String Unit)
    (json : Attrs) : FromJsonResult :=
  let filtered := json.filter (fun kv => d.ctorParams.contains kv.1)
  match ctor_call d validateA filtered with
  | .typeError => .typeError
  | .validationError e => .ctorError e
  | .ok ctorRec =>
    match validateA (merged_record d json) with
    | .ok _ => .ok (merged_record d json)
    | .error e => .schemaError ctorRec e

/-- A heap of Python list objects: the reference is the index, the content is
the list of node identifiers it holds.  Getters that return
`self._json_attrs.field.copy()` allocate a fresh list object with the same
content. -/
abbrev ListHeap := List (List Nat)

/-- Dereference a list object. -/
def heapRead (h : ListHeap) (r : Nat) : List Nat := h.getD r []

/-- Allocate a fresh list object holding `l`; returns the new heap and the
fresh reference. -/
def heapAlloc (h : ListHeap) (l : List Nat) : ListHeap × Nat := (h ++ [l], h.length)

/-- In-place mutation of the list object behind `r` (append, delete,
reorder: any replacement of its contents). -/
def heapWrite (h : ListHeap) (r : Nat) (l : List Nat) : ListHeap := h.set r l

/-- The list-returning getters of `Algorithm` (`parameter`, `citation`) and
`SoftwareConfiguration` (`algorithms`, `citation`): each returns
`self._json_attrs.<field>.copy()`, i.e. a freshly allocated list object with
the record's content. -/
def getter_copy (h : ListHeap) (r : Nat) : ListHeap × Nat := heapAlloc h (heapRead h r)

/-- `CRIPTConnectionError.__init__` token masking, on the token's character
list: `token[:n] + "*" * (len(token) - 2*n) + token[-n:]` with
`n = len(token) // 4`.  Python's `token[-0:]` is the whole string, which the
`if` reproduces faithfully. -/
def mask_token (t : List Char) : List Char :=
  let n := t.length / 4
  t.take n ++ List.replicate (t.length - 2 * n) '*' ++
    (if n = 0 then t else t.drop (t.length - n))

/-- Claim C10: for every token of length at least 4, the stored masked token
has the token's length, takes only the first and last `len / 4` characters
from the token, fills everything between with `'*'`, and is independent of
the token's middle characters (the full token is never stored). -/
theorem claim_C10 (t : List Char) (h4 : 4 ≤ t.length) :
    mask_token t =
      t.take (t.length / 4) ++ List.replicate (t.length - 2 * (t.length / 4)) '*' ++
        t.drop (t.length - t.length / 4) ∧
    (mask_token t).length = t.length ∧
    ((mask_token t).drop (t.length / 4)).take (t.length - 2 * (t.length / 4)) =
      List.replicate (t.length - 2 * (t.length / 4)) '*' ∧
    (∀ t' : List Char, t'.length = t.length → t'.take (t.length / 4) = t.take (t.length / 4) →
      t'.drop (t'.length - t.length / 4) = t.drop (t.length - t.length / 4) →
      mask_token t' = mask_token t) := by
  have hn1 : 1 ≤ t.length / 4 := (Nat.one_le_div_iff (by norm_num)).mpr h4
  have hn4 : t.length / 4 * 4 ≤ t.length := Nat.div_mul_le_self _ _
  have hne : t.length / 4 ≠ 0 := by omega
  have hmask : mask_token t =
      t.take (t.length / 4) ++ List.replicate (t.length - 2 * (t.length / 4)) '*' ++
        t.drop (t.length - t.length / 4) := by
    simp [mask_token, hne]
  refine ⟨hmask, ?_, ?_, ?_⟩
  · rw [hmask]
    simp [List.length_take, List.length_drop]
    omega
  · rw [hmask]
    have hlt : (t.take (t.length / 4)).length = t.length / 4 := by
      rw [List.length_take]
      omega
    have hrep : (List.replicate (t.length - 2 * (t.length / 4)) '*').length =
        t.length - 2 * (t.length / 4) := by simp
    rw [List.append_assoc, List.drop_left' hlt, List.take_left' hrep]
  · intro t' hlen htake hdrop
    rw [hlen] at hdrop
    simp only [mask_token, hlen, if_neg hne]
    rw [htake, hdrop]

/-- The characters of the example token used in witnesses. -/
def tokA : List Char := ['a', 'b', 'c', 'd', 'e', 'f', 'g', 'h']

/-- A token agreeing with `tokA` outside the middle but different inside. -/
def tokB : List Char := ['a', 'b', 'X', 'Y', 'Z', 'W', 'g', 'h']

/-- Witness for claim C10 at a concrete token. -/
theorem claim_C10_witness :
    mask_token tokA =
      tokA.take (tokA.length / 4) ++ List.replicate (tokA.length - 2 * (tokA.length / 4)) '*' ++
        tokA.drop (tokA.length - tokA.length / 4) ∧
    mask_token tokB = mask_token tokA := by
  have h := claim_C10 tokA (by decide)
  exact ⟨h.1, h.2.2.2 tokB (by decide) (by decide) (by decide)⟩

/-- The framing property of a fresh-copy list getter: the returned list
object is a different object than the record's, holds the same content, and
mutating it afterwards leaves the record's list unchanged. -/
def FreshCopyGetter (g : ListHeap → Nat → ListHeap × Nat) : Prop :=
  ∀ (h : ListHeap) (r : Nat), r < h.length →
    (g h r).2 ≠ r ∧
    heapRead (g h r).1 (g h r).2 = heapRead h r ∧
    ∀ l' : List Nat, heapRead (heapWrite (g h r).1 (g h r).2 l') r = heapRead h r

/-- `Algorithm.parameter` getter (`self._json_attrs.parameter.copy()`). -/
def algorithm_get_parameter (h : ListHeap) (parameter_ref : Nat) : ListHeap × Nat :=
  getter_copy h parameter_ref

/-- `Algorithm.citation` getter (`self._json_attrs.citation.copy()`). -/
def algorithm_get_citation (h : ListHeap) (citation_ref : Nat) : ListHeap × Nat :=
  getter_copy h citation_ref

/-- `SoftwareConfiguration.algorithms` getter
(`self._json_attrs.algorithms.copy()`). -/
def software_configuration_get_algorithms (h : ListHeap) (algorithms_ref : Nat) :
    ListHeap × Nat :=
  getter_copy h algorithms_ref

/-- `SoftwareConfiguration.citation` getter
(`self._json_attrs.citation.copy()`). -/
def software_configuration_get_citation (h : ListHeap) (citation_ref : Nat) :
    ListHeap × Nat :=
  getter_copy h citation_ref

/-- `getter_copy` satisfies the fresh-copy framing property. -/
theorem getter_copy_fresh : FreshCopyGetter getter_copy := by
  intro h r hr
  have hne : h.length ≠ r := by omega
  refine ⟨hne, ?_, ?_⟩
  · simp [getter_copy, heapAlloc, heapRead, List.getD_eq_getElem?_getD]
  · intro l'
    simp only [getter_copy, heapAlloc, heapRead, heapWrite, List.getD_eq_getElem?_getD]
    rw [List.getElem?_set_ne (by omega)]
    rw [List.getElem?_append, if_pos hr]

/-- Claim C9: the `Algorithm.parameter`, `Algorithm.citation`,
`SoftwareConfiguration.algorithms` and `SoftwareConfiguration.citation`
getters return a fresh copy of the record's list, so mutating the returned
list leaves the node's attribute record unchanged. -/
theorem claim_C9 :
    FreshCopyGetter algorithm_get_parameter ∧
    FreshCopyGetter algorithm_get_citation ∧
    FreshCopyGetter software_configuration_get_algorithms ∧
    FreshCopyGetter software_configuration_get_citation :=
  ⟨getter_copy_fresh, getter_copy_fresh, getter_copy_fresh, getter_copy_fresh⟩

/-- Witness for claim C9 at a concrete heap holding one record list. -/
theorem claim_C9_witness :
    (algorithm_get_parameter [[5, 6]] 0).2 ≠ 0 ∧
    heapRead (algorithm_get_parameter [[5, 6]] 0).1 (algorithm_get_parameter [[5, 6]] 0).2 =
      [5, 6] ∧
    heapRead
      (heapWrite (algorithm_get_parameter [[5, 6]] 0).1 (algorithm_get_parameter [[5, 6]] 0).2
        [9]) 0 = [5, 6] := by
  have h := claim_C9.1 [[5, 6]] 0 (by decide)
  exact ⟨h.1, h.2.1, h.2.2 [9]⟩

/-- A concrete schema-validation collaborator: it rejects any record whose
`key` field is the string "bad". -/
def rejectBadKey : Attrs → Except String Unit := fun attrs =>
  if lookupField attrs "key" == some (.aStr "bad") then .error "CRIPTNodeSchemaError"
  else .ok ()

/-- A concrete valid `Algorithm` record. -/
def algAttrs0 : Attrs :=
  [("node", .aStrList ["Algorithm"]), ("key", .aStr "mc_barostat"),
   ("type", .aStr "barostat"), ("parameter", .aNodeList []), ("citation", .aNodeList [])]

/-- Claim C1, counterexample: setting `Algorithm.key` to a value the schema
collaborator rejects propagates the error but leaves the rejected record
installed, so the node's observable JSON after the rejected mutation differs
from the JSON before it. -/
theorem claim_C1_counterexample :
    (algorithm_set_key rejectBadKey algAttrs0 "bad").2 = some "CRIPTNodeSchemaError" ∧
    (algorithm_set_key rejectBadKey algAttrs0 "bad").1 ≠ algAttrs0 ∧
    renderAttrs (algorithm_set_key rejectBadKey algAttrs0 "bad").1 ≠ renderAttrs algAttrs0 := by
  refine ⟨by decide, by decide, ?_⟩
  decide

/-- Claim C1, amended: every mutation routed through
`_update_json_attrs_if_valid` — including `remove_child` and the
`SoftwareConfiguration` setters — is rolled back on validation failure, with
the record (hence the observable JSON) left byte-identical and the
triggering error re-raised unchanged; the `Algorithm` property setters
instead install the record before validating, leaving the rejected record in
place while the error still propagates. -/
theorem claim_C1_amended :
    (∀ (v : Attrs → Except String Unit) (old_attrs new_attrs : Attrs) (e : String),
      v new_attrs = .error e →
      update_json_attrs_if_valid v old_attrs new_attrs = (old_attrs, some e) ∧
      renderAttrs (update_json_attrs_if_valid v old_attrs new_attrs).1 =
        renderAttrs old_attrs) ∧
    (∀ (v : Attrs → Except String Unit) (old_attrs new_attrs : Attrs),
      v new_attrs = .ok () →
      update_json_attrs_if_valid v old_attrs new_attrs = (new_attrs, none)) ∧
    (∀ (v : Attrs → Except String Unit) (attrs : Attrs) (l : List Nat) (e : String),
      v (setField attrs "algorithms" (.aNodeList l)) = .error e →
      software_configuration_set_algorithms v attrs l = (attrs, some e)) ∧
    (∀ (v : Attrs → Except String Unit) (attrs defaults : Attrs) (child : Nat) (e : String),
      (remove_child v attrs defaults child).2 = .schemaError e →
      (remove_child v attrs defaults child).1 = attrs) ∧
    (∀ (v : Attrs → Except String Unit) (attrs : Attrs) (k e : String),
      v (setField attrs "key" (.aStr k)) = .error e →
      algorithm_set_key v attrs k = (setField attrs "key" (.aStr k), some e)) := by
  refine ⟨?_, ?_, ?_, ?_, ?_⟩
  · intro v old_attrs new_attrs e hv
    simp [update_json_attrs_if_valid, hv]
  · intro v old_attrs new_attrs hv
    simp [update_json_attrs_if_valid, hv]
  · intro v attrs l e hv
    simp [software_configuration_set_algorithms, update_json_attrs_if_valid, hv]
  · intro v attrs defaults child e hout
    unfold remove_child at hout ⊢
    rcases hloop : remove_child_loop child defaults attrs with _ | ⟨na, ch⟩
    · simp [hloop]
    · rcases ch with _ | _
      · simp [hloop] at hout
      · rcases hv : v na with e' | u
        · simp [hloop, hv]
        · simp [hloop, hv] at hout
  · intro v attrs k e hv
    simp [algorithm_set_key, hv]

/-- A collaborator rejecting a `SoftwareConfiguration` record holding
exactly the algorithm list `[3, 4]`. -/
def rejectAlgs34 : Attrs → Except String Unit := fun attrs =>
  if lookupField attrs "algorithms" == some (.aNodeList [3, 4]) then
    .error "CRIPTNodeSchemaError"
  else .ok ()

/-- A concrete `SoftwareConfiguration` record. -/
def scAttrs0 : Attrs :=
  [("node", .aStrList ["SoftwareConfiguration"]), ("software", .aNone),
   ("algorithms", .aNodeList [3]), ("notes", .aStr ""), ("citation", .aNodeList [])]

/-- A collaborator rejecting an `Algorithm` record with an empty parameter
list. -/
def rejectEmptyParam : Attrs → Except String Unit := fun attrs =>
  if lookupField attrs "parameter" == some (.aNodeList []) then
    .error "CRIPTNodeSchemaError"
  else .ok ()

/-- The class defaults of `Algorithm.JsonAttributes` (its `node` field
overrides the inherited default with the plain string "Algorithm"). -/
def algDefaults : Attrs :=
  [("node", .aStr "Algorithm"), ("key", .aStr ""), ("type", .aStr ""),
   ("parameter", .aNodeList []), ("citation", .aNodeList [])]

/-- A concrete `Algorithm` record holding one parameter node `7`. -/
def algAttrsOne : Attrs :=
  [("node", .aStrList ["Algorithm"]), ("key", .aStr "mc_barostat"),
   ("type", .aStr "barostat"), ("parameter", .aNodeList [7]), ("citation", .aNodeList [])]

/-- Witness for the amended claim C1 at concrete records and collaborators. -/
theorem claim_C1_amended_witness :
    update_json_attrs_if_valid rejectBadKey algAttrs0
        (setField algAttrs0 "key" (.aStr "bad")) =
      (algAttrs0, some "CRIPTNodeSchemaError") ∧
    update_json_attrs_if_valid rejectBadKey algAttrs0
        (setField algAttrs0 "key" (.aStr "better")) =
      (setField algAttrs0 "key" (.aStr "better"), none) ∧
    software_configuration_set_algorithms rejectAlgs34 scAttrs0 [3, 4] =
      (scAttrs0, some "CRIPTNodeSchemaError") ∧
    (remove_child rejectEmptyParam algAttrsOne algDefaults 7).1 = algAttrsOne ∧
    algorithm_set_key rejectBadKey algAttrs0 "bad" =
      (setField algAttrs0 "key" (.aStr "bad"), some "CRIPTNodeSchemaError") := by
  have h := claim_C1_amended
  exact ⟨(h.1 rejectBadKey algAttrs0 _ _ (by rfl)).1,
    h.2.1 rejectBadKey algAttrs0 _ (by rfl),
    h.2.2.1 rejectAlgs34 scAttrs0 [3, 4] _ (by rfl),
    h.2.2.2.1 rejectEmptyParam algAttrsOne algDefaults 7 "CRIPTNodeSchemaError" (by rfl),
    h.2.2.2.2 rejectBadKey algAttrs0 "bad" _ (by rfl)⟩

/-- A collaborator that accepts every record. -/
def okV : Attrs → Except String Unit := fun _ => .ok ()

/-- A concrete `Algorithm` record whose parameter list contains the same
child node `7` twice (`a.parameter += [p]` executed twice). -/
def algAttrsDup : Attrs :=
  [("node", .aStrList ["Algorithm"]), ("key", .aStr "mc_barostat"),
   ("type", .aStr "barostat"), ("parameter", .aNodeList [7, 7]), ("citation", .aNodeList [])]

/-- Claim C3, code evaluation: with the child present twice in the list
field, `remove_child` raises `IndexError` (the inner loop has no break, so
the second occurrence's `del new_attr_list[i]` indexes past the shrunk
copy) instead of removing one occurrence and returning true; with a single
occurrence it removes it and returns true, and on the now-absent child it
returns false leaving the node unchanged. -/
theorem claim_C3_evaluation :
    remove_child okV algAttrsDup algDefaults 7 = (algAttrsDup, .indexError) ∧
    remove_child okV algAttrsOne algDefaults 7 =
      (setField algAttrsOne "parameter" (.aNodeList []), .removed) ∧
    remove_child okV (setField algAttrsOne "parameter" (.aNodeList [])) algDefaults 7 =
      (setField algAttrsOne "parameter" (.aNodeList []), .notFound) := by
  refine ⟨by decide, by decide, by decide⟩

/-- The references of a record decompose field by field. -/
theorem refIds_cons (f : String) (v : AVal) (rest : Attrs) :
    refIds ((f, v) :: rest) = fieldChildIds v ++ refIds rest := by
  simp [refIds]

/-- When the child occurs nowhere in the list, the deletion loop leaves the
working copy untouched and reports not-found. -/
theorem del_loop_not_mem (child : Nat) :
    ∀ (l : List Nat) (i : Nat) (cur : List Nat), child ∉ l →
      del_loop child l i cur false = some (cur, false) := by
  intro l
  induction l with
  | nil => intro i cur _; rfl
  | cons x rest ih =>
    intro i cur hmem
    have hx : ¬ x = child := by
      intro h
      exact hmem (by simp [h])
    rw [del_loop, if_neg hx]
    exact ih _ _ (fun h => hmem (List.mem_cons_of_mem _ h))

/-- When the child is referenced by no field, the field loop of
`remove_child` rebuilds the record unchanged and reports no replacement. -/
theorem remove_child_loop_not_mem (child : Nat) (defaults : Attrs) :
    ∀ attrs : Attrs, child ∉ refIds attrs →
      remove_child_loop child defaults attrs = some (attrs, false) := by
  intro attrs
  induction attrs with
  | nil => intro _; rfl
  | cons kv rest ih =>
    intro hmem
    obtain ⟨f, v⟩ := kv
    rw [refIds_cons] at hmem
    have hv : child ∉ fieldChildIds v := fun h => hmem (List.mem_append_left _ h)
    have hrest : child ∉ refIds rest := fun h => hmem (List.mem_append_right _ h)
    cases v with
    | aNode i =>
      have hi : ¬ i = child := by
        intro h
        exact hv (by simp [fieldChildIds, h])
      have heq : remove_child_loop child defaults ((f, AVal.aNode i) :: rest) =
          if i = child then
            match remove_child_loop child defaults rest with
            | none => none
            | some (r, _) => some ((f, (lookupField defaults f).getD .aNone) :: r, true)
          else
            match remove_child_loop child defaults rest with
            | none => none
            | some (r, c) => some ((f, AVal.aNode i) :: r, c) := rfl
      rw [heq, if_neg hi, ih hrest]
    | aNodeList l =>
      have hl : child ∉ l := by simpa [fieldChildIds] using hv
      have heq : remove_child_loop child defaults ((f, AVal.aNodeList l) :: rest) =
          match del_loop child l 0 l false with
          | none => none
          | some (newList, true) => some ((f, AVal.aNodeList newList) :: rest, true)
          | some (_, false) =>
            match remove_child_loop child defaults rest with
            | none => none
            | some (r, c) => some ((f, AVal.aNodeList l) :: r, c) := rfl
      rw [heq, del_loop_not_mem child l 0 l hl, ih hrest]
    | aStr s =>
      have heq : remove_child_loop child defaults ((f, AVal.aStr s) :: rest) =
          match remove_child_loop child defaults rest with
          | none => none
          | some (r, c) => some ((f, AVal.aStr s) :: r, c) := rfl
      rw [heq, ih hrest]
    | aNone =>
      have heq : remove_child_loop child defaults ((f, AVal.aNone) :: rest) =
          match remove_child_loop child defaults rest with
          | none => none
          | some (r, c) => some ((f, AVal.aNone) :: r, c) := rfl
      rw [heq, ih hrest]
    | aStrList l =>
      have heq : remove_child_loop child defaults ((f, AVal.aStrList l) :: rest) =
          match remove_child_loop child defaults rest with
          | none => none
          | some (r, c) => some ((f, AVal.aStrList l) :: r, c) := rfl
      rw [heq, ih hrest]

/-- The record of the structurally-equal-but-distinct `Parameter` instances
used for claim C7. -/
def paramRec : Attrs := [("node", .aStrList ["Parameter"]), ("key", .aStr "update_frequency")]

/-- A store holding two distinct `Parameter` instances (7 and 2) with
byte-identical records, and an `Algorithm` instance 0 whose parameter list
holds instance 7 only. -/
def storeC7 : Store := [(7, paramRec), (2, paramRec), (0, algAttrsOne)]

/-- Claim C7: `remove_child` compares by reference identity, never by
structural equality: a child referenced by no field is never removed (the
child's record is not even consulted), and concretely the instance 2, whose
record is byte-identical to instance 7's, is not removed from a node holding
only instance 7, while instance 7 itself is. -/
theorem claim_C7 :
    (∀ (v : Attrs → Except String Unit) (attrs defaults : Attrs) (child : Nat),
      child ∉ refIds attrs → remove_child v attrs defaults child = (attrs, .notFound)) ∧
    nodeAttrs storeC7 7 = nodeAttrs storeC7 2 ∧
    remove_child okV algAttrsOne algDefaults 2 = (algAttrsOne, .notFound) ∧
    remove_child okV algAttrsOne algDefaults 7 =
      (setField algAttrsOne "parameter" (.aNodeList []), .removed) := by
  refine ⟨?_, by decide, by decide, by decide⟩
  intro v attrs defaults child hmem
  unfold remove_child
  rw [remove_child_loop_not_mem child defaults attrs hmem]
  rfl

/-- Witness for claim C7's universally quantified part at a concrete input. -/
theorem claim_C7_witness :
    remove_child okV algAttrsOne algDefaults 9 = (algAttrsOne, .notFound) :=
  claim_C7.1 okV algAttrsOne algDefaults 9 (by decide)

/-- Keyed search over a record projected through a per-field function,
as `find?` commutes with `map` when the key component is preserved. -/
theorem find?_map_keyed (l : Attrs) (g : String × AVal → AVal) (f : String) :
    ((l.map (fun fd => (fd.1, g fd))).find? (fun kv => kv.1 == f)) =
      (l.find? (fun fd => fd.1 == f)).map (fun fd => (fd.1, g fd)) := by
  induction l with
  | nil => rfl
  | cons fd rest ih =>
    by_cases hf : fd.1 == f
    · simp [List.find?, hf]
    · simp only [List.map_cons, List.find?]
      rw [Bool.of_not_eq_true hf]
      exact ih

/-- The record installed by `_from_json`'s atomic replace holds, for every
declared field, the decoded value when the input object carries the key and
the class default otherwise. -/
theorem lookup_merged_record (d : ClassDesc) (json : Attrs) (f : String) :
    lookupField (merged_record d json) f =
      (d.fields.find? (fun fd => fd.1 == f)).map
        (fun fd => (lookupField json fd.1).getD fd.2) := by
  unfold merged_record lookupField
  rw [find?_map_keyed]
  cases d.fields.find? (fun fd => fd.1 == f) <;> rfl

/-- The `ClassDesc` of `Algorithm`: `key` and `type` have no default, there
is no `**kwargs`, the body calls `super().__init__(node="Algorithm")`
against the no-argument `BaseNode.__init__` (an unconditional `TypeError`
in this snapshot), and its `replace` stores `key`, `type` and `parameter`
but not `citation`. -/
def algorithmDesc : ClassDesc :=
  { nodeType := "Algorithm"
    ctorParams := ["key", "type", "parameter", "citation"]
    requiredParams := ["key", "type"]
    hasKwargs := false
    kwargsToSuper := false
    superGetsNode := true
    ctorStored := ["key", "type", "parameter"]
    fields := algDefaults }

/-- The `ClassDesc` of `SoftwareConfiguration`: `software` has no default,
the signature ends in `**kwargs`, but the body forwards those `**kwargs` to
the no-argument `BaseNode.__init__`, so any extra key still raises
`TypeError`; all four named parameters are stored by its `replace`.  Its
inherited `node` class default is the empty list. -/
def scDesc : ClassDesc :=
  { nodeType := "SoftwareConfiguration"
    ctorParams := ["software", "algorithms", "notes", "citation"]
    requiredParams := ["software"]
    hasKwargs := true
    kwargsToSuper := true
    superGetsNode := false
    ctorStored := ["software", "algorithms", "notes", "citation"]
    fields := [("node", .aStrList []), ("software", .aNone),
               ("algorithms", .aNodeList []), ("notes", .aStr ""),
               ("citation", .aNodeList [])] }

/-- A decoded `Algorithm` object carrying, besides constructor keys, the
internally-managed identifier key `uid` that `Algorithm.__init__` does not
accept. -/
def jsonWithUid : Attrs :=
  [("key", .aStr "mc_barostat"), ("type", .aStr "barostat"), ("uid", .aStr "u1")]

/-- A decoded object carrying only constructor keys of `Algorithm`. -/
def jsonPlain : Attrs := [("key", .aStr "mc_barostat"), ("type", .aStr "barostat")]

/-- A decoded `SoftwareConfiguration` object carrying its defaultless
`software` key and, besides it, the internally-managed identifier key `uid`
that names no constructor parameter. -/
def scJsonWithUid : Attrs := [("software", .aNone), ("uid", .aStr "u1")]

/-- Claim C8, counterexample: `_from_json` passes every key of the decoded
object to the constructor (`cls(**json)`), so a `SoftwareConfiguration`
object carrying `uid` raises `TypeError` — the extra key is bound by
`**kwargs` and forwarded to the no-argument `BaseNode.__init__`; under the
specification's reading (constructor invoked with exactly the keys matching
constructor parameters) the same input reconstructs successfully. -/
theorem claim_C8_counterexample :
    from_json scDesc okV scJsonWithUid = .typeError ∧
    from_json_spec scDesc okV scJsonWithUid =
      .ok (merged_record scDesc scJsonWithUid) := by
  refine ⟨by decide, by decide⟩

/-- Claim C8, amended: the constructor is invoked with all keys of the
decoded object; `TypeError` escapes when a key matches no constructor
parameter and the constructor has no `**kwargs`, when a parameter without a
default is missing, and when the body hands arguments to the no-argument
`BaseNode.__init__` (`Algorithm` unconditionally via
`super().__init__(node=...)`; `SoftwareConfiguration` via
`super().__init__(**kwargs)` whenever extra keys are present).  When
construction succeeds, the decoded fields corresponding to record fields
are installed as one fresh candidate record (decoded value where the key is
present, class default otherwise) and validated as one atomic replace,
which on failure leaves the constructor-produced record and propagates the
error. -/
theorem claim_C8_amended :
    (∀ (d : ClassDesc) (v : Attrs → Except String Unit) (json : Attrs),
      ctor_call d v json = .typeError → from_json d v json = .typeError) ∧
    (∀ (d : ClassDesc) (v : Attrs → Except String Unit) (json : Attrs) (e : String),
      ctor_call d v json = .validationError e → from_json d v json = .ctorError e) ∧
    (∀ (d : ClassDesc) (v : Attrs → Except String Unit) (json : Attrs) (r : Attrs),
      ctor_call d v json = .ok r → v (merged_record d json) = .ok () →
      from_json d v json = .ok (merged_record d json) ∧
      ∀ f : String, lookupField (merged_record d json) f =
        (d.fields.find? (fun fd => fd.1 == f)).map
          (fun fd => (lookupField json fd.1).getD fd.2)) ∧
    (∀ (d : ClassDesc) (v : Attrs → Except String Unit) (json : Attrs) (r : Attrs)
      (e : String),
      ctor_call d v json = .ok r → v (merged_record d json) = .error e →
      from_json d v json = .schemaError r e) ∧
    (∀ (d : ClassDesc) (v : Attrs → Except String Unit) (json : Attrs),
      d.hasKwargs = false → extra_keys d json = true → from_json d v json = .typeError) ∧
    (∀ (d : ClassDesc) (v : Attrs → Except String Unit) (json : Attrs),
      missing_required d json = true → from_json d v json = .typeError) ∧
    (∀ (d : ClassDesc) (v : Attrs → Except String Unit) (json : Attrs),
      d.superGetsNode = true → from_json d v json = .typeError) ∧
    (∀ (d : ClassDesc) (v : Attrs → Except String Unit) (json : Attrs),
      d.hasKwargs = true → d.kwargsToSuper = true → extra_keys d json = true →
      from_json d v json = .typeError) := by
  have hty : ∀ (d : ClassDesc) (v : Attrs → Except String Unit) (json : Attrs),
      ctor_call d v json = .typeError → from_json d v json = .typeError := by
    intro d v json hc
    simp [from_json, hc]
  refine ⟨hty, ?_, ?_, ?_, ?_, ?_, ?_, ?_⟩
  · intro d v json e hc
    simp [from_json, hc]
  · intro d v json r hc hm
    refine ⟨?_, fun f => lookup_merged_record d json f⟩
    simp [from_json, hc, hm]
  · intro d v json r e hc hm
    simp [from_json, hc, hm]
  · intro d v json hkw hex
    refine hty d v json ?_
    unfold ctor_call
    rw [hkw, hex]
    simp
  · intro d v json hmiss
    refine hty d v json ?_
    unfold ctor_call
    rw [hmiss]
    by_cases h1 : (!d.hasKwargs && extra_keys d json) = true
    · simp [h1]
    · simp [h1]
  · intro d v json hsuper
    refine hty d v json ?_
    unfold ctor_call
    rw [hsuper]
    by_cases h1 : (!d.hasKwargs && extra_keys d json) = true
    · simp [h1]
    · by_cases h2 : missing_required d json = true
      · simp [h1, h2]
      · simp [h1, h2]
  · intro d v json hkw hkts hex
    refine hty d v json ?_
    unfold ctor_call
    rw [hkw, hkts, hex]
    by_cases h2 : missing_required d json = true
    · simp [h2]
    · by_cases h3 : d.superGetsNode = true
      · simp [h2, h3]
      · simp [h2, h3]

/-- A collaborator rejecting records whose `node` tag list is empty — the
class default that the atomic-replace step of `_from_json` reinstalls when
the decoded object carries no `node` key, although the constructor had set
the proper tag list. -/
def rejectEmptyNode : Attrs → Except String Unit := fun attrs =>
  if lookupField attrs "node" == some (.aStrList []) then
    .error "CRIPTNodeSchemaError"
  else .ok ()

/-- Witness for the amended claim C8 at concrete inputs: the binding
`TypeError` of `Algorithm` on an extra key, the unconditional constructor
`TypeError` of `Algorithm` even on matching keys, the missing-required and
forwarded-kwargs `TypeError`s of `SoftwareConfiguration`, and the success
and atomic-replace-failure paths on a constructible input. -/
theorem claim_C8_amended_witness :
    from_json algorithmDesc okV jsonWithUid = .typeError ∧
    from_json algorithmDesc okV jsonPlain = .typeError ∧
    from_json scDesc okV ([] : Attrs) = .typeError ∧
    from_json scDesc okV scJsonWithUid = .typeError ∧
    from_json scDesc okV [("software", .aNone)] =
      .ok (merged_record scDesc [("software", .aNone)]) ∧
    from_json scDesc rejectEmptyNode [("software", .aNone)] =
      .schemaError (ctor_record scDesc [("software", .aNone)])
        "CRIPTNodeSchemaError" := by
  have h := claim_C8_amended
  refine ⟨h.2.2.2.2.1 algorithmDesc okV jsonWithUid rfl (by decide),
    h.2.2.2.2.2.2.1 algorithmDesc okV jsonPlain rfl,
    h.2.2.2.2.2.1 scDesc okV [] (by decide),
    h.2.2.2.2.2.2.2 scDesc okV scJsonWithUid rfl rfl (by decide),
    (h.2.2.1 scDesc okV [("software", .aNone)]
      (ctor_record scDesc [("software", .aNone)]) (by rfl) (by rfl)).1,
    h.2.2.2.1 scDesc rejectEmptyNode [("software", .aNone)]
      (ctor_record scDesc [("software", .aNone)]) "CRIPTNodeSchemaError"
      (by rfl) (by rfl)⟩


/-- Two nodes referencing each other through list-valued fields, exactly the
shape `test_cycles` builds via `computation` and `output_data` lists. -/
def cycStore : Store :=
  [(0, [("name", .aStr "data"), ("computation", .aNodeList [1])]),
   (1, [("name", .aStr "comp"), ("output_data", .aNodeList [0])])]

/-- A diamond: the root holds the same leaf node in two scalar node-valued
fields; the subgraph has no cycle. -/
def diamondStore : Store :=
  [(0, [("first", .aNode 1), ("second", .aNode 1)]),
   (1, [("name", .aStr "leaf")])]

/-- Destinations reachable in the diamond store: from the leaf only the leaf
itself, from the root only root and leaf. -/
theorem reaches_diamond_aux : ∀ {x z : Nat}, Reaches diamondStore x z →
    (x = 1 → z = 1) ∧ (x = 0 → z = 0 ∨ z = 1) := by
  intro x z h
  induction h with
  | refl a => exact ⟨fun h1 => h1, fun h0 => Or.inl h0⟩
  | head hmem _ ih =>
    constructor
    · intro hx1
      subst hx1
      rw [show childIds diamondStore 1 = [] from rfl] at hmem
      exact absurd hmem (List.not_mem_nil _)
    · intro hx0
      subst hx0
      rw [show childIds diamondStore 0 = [1, 1] from rfl] at hmem
      simp at hmem
      exact Or.inr (ih.1 hmem)

/-- Claim C2, code evaluation: on the two-node cycle built through
list-valued reference fields, `validate` raises no cycle error although a
node of the subgraph is reachable from itself (the walk of `_has_cycle`
never descends into list-valued fields); on the cycle-free diamond through
scalar fields it does raise the cycle error (the shared visited list counts
the second path to the shared node as a revisit). -/
theorem claim_C2_evaluation :
    validate cycStore 0 true 4 = some (.ok ()) ∧
    CycleFrom cycStore 0 ∧
    validate diamondStore 0 true 4 = some (.error "CRIPTNodeCycleError") ∧
    ¬ CycleFrom diamondStore 0 := by
  refine ⟨?_, ?_, ?_, ?_⟩
  · simp [validate, has_cycle_fuel, has_cycle_list, scalarChildIds, nodeAttrs, cycStore]
  · refine ⟨0, 1, .refl 0, ?_, ?_⟩
    · rw [show childIds cycStore 0 = [1] from rfl]
      simp
    · exact .head (by rw [show childIds cycStore 1 = [0] from rfl]; simp) (.refl 0)
  · simp [validate, has_cycle_fuel, has_cycle_list, scalarChildIds, nodeAttrs, diamondStore]
  · rintro ⟨n, y, h0n, hyc, hyn⟩
    rcases (reaches_diamond_aux h0n).2 rfl with h0 | h1
    · subst h0
      rw [show childIds diamondStore 0 = [1, 1] from rfl] at hyc
      simp at hyc
      subst hyc
      exact absurd ((reaches_diamond_aux hyn).1 rfl) (by decide)
    · subst h1
      rw [show childIds diamondStore 1 = [] from rfl] at hyc
      exact absurd hyc (List.not_mem_nil _)

/-- Unfolding: out of fuel. -/
theorem fcf_zero (store : Store) (crit : Criteria) (nid : Nat) (depth : Int)
    (handled : List Nat) :
    find_children_fuel store crit 0 nid depth handled = none := by
  simp [find_children_fuel]

/-- Unfolding of one `find_children` call. -/
theorem fcf_succ (store : Store) (crit : Criteria) (fuel : Nat) (nid : Nat) (depth : Int)
    (handled : List Nat) :
    find_children_fuel store crit (fuel + 1) nid depth handled =
      if nid ∈ handled then some (handled, [])
      else if depth = 0 then
        some (handled ++ [nid], if matchesCrit store nid crit then [nid] else [])
      else
        match find_children_list store crit fuel (childIds store nid) (depth - 1)
            (handled ++ [nid]) with
        | none => none
        | some (h, res) =>
          some (h, (if matchesCrit store nid crit then [nid] else []) ++ res) := by
  simp [find_children_fuel]

/-- Unfolding: empty child list. -/
theorem fcl_nil (store : Store) (crit : Criteria) (fuel : Nat) (depth : Int)
    (handled : List Nat) :
    find_children_list store crit fuel [] depth handled = some (handled, []) := by
  cases fuel <;> simp [find_children_list]

/-- Unfolding of one step of the child loop. -/
theorem fcl_cons (store : Store) (crit : Criteria) (fuel : Nat) (c : Nat) (cs : List Nat)
    (depth : Int) (handled : List Nat) :
    find_children_list store crit fuel (c :: cs) depth handled =
      match find_children_fuel store crit fuel c depth handled with
      | none => none
      | some (h1, res1) =>
        match find_children_list store crit fuel cs depth h1 with
        | none => none
        | some (h2, res2) => some (h2, res1 ++ res2) := by
  cases fuel <;> simp [find_children_list]

/-- Decomposition invariant of a `find_children` call: the visited list grows
by a block of previously unvisited, pairwise distinct nodes, the result is
exactly the matching members of that block (in visit order), and every
member of the block is reachable from the call's node within the remaining
depth. -/
def DecompF (store : Store) (crit : Criteria) (fuel : Nat) : Prop :=
  ∀ nid depth handled h res,
    find_children_fuel store crit fuel nid depth handled = some (h, res) →
    ∃ fresh, h = handled ++ fresh ∧ fresh.Nodup ∧ (∀ x ∈ fresh, x ∉ handled) ∧
      res = fresh.filter (fun x => matchesCrit store x crit) ∧
      ∀ x ∈ fresh, ReachesD store nid x depth

/-- Decomposition invariant of the child loop, reachability being from one of
the children. -/
def DecompL (store : Store) (crit : Criteria) (fuel : Nat) : Prop :=
  ∀ cs depth handled h res,
    find_children_list store crit fuel cs depth handled = some (h, res) →
    ∃ fresh, h = handled ++ fresh ∧ fresh.Nodup ∧ (∀ x ∈ fresh, x ∉ handled) ∧
      res = fresh.filter (fun x => matchesCrit store x crit) ∧
      ∀ x ∈ fresh, ∃ c ∈ cs, ReachesD store c x depth

/-- The child loop inherits the decomposition invariant from the call. -/
theorem decompL_step (store : Store) (crit : Criteria) (fuel : Nat)
    (hF : DecompF store crit fuel) : DecompL store crit fuel := by
  intro cs
  induction cs with
  | nil =>
    intro depth handled h res heq
    rw [fcl_nil] at heq
    simp only [Option.some.injEq, Prod.mk.injEq] at heq
    obtain ⟨rfl, rfl⟩ := heq
    exact ⟨[], by simp, List.nodup_nil, by simp, by simp, by simp⟩
  | cons c cs ih =>
    intro depth handled h res heq
    rw [fcl_cons] at heq
    split at heq
    · exact absurd heq (by simp)
    · rename_i h1 res1 hc
      split at heq
      · exact absurd heq (by simp)
      · rename_i h2 res2 hl
        simp only [Option.some.injEq, Prod.mk.injEq] at heq
        obtain ⟨rfl, rfl⟩ := heq
        obtain ⟨f1, hh1, hnd1, hdis1, hres1, hreach1⟩ := hF c depth handled h1 res1 hc
        obtain ⟨f2, hh2, hnd2, hdis2, hres2, hreach2⟩ := ih depth h1 h2 res2 hl
        refine ⟨f1 ++ f2, ?_, ?_, ?_, ?_, ?_⟩
        · rw [hh2, hh1, List.append_assoc]
        · rw [List.nodup_append]
          refine ⟨hnd1, hnd2, ?_⟩
          intro a ha1 ha2
          exact hdis2 a ha2 (hh1 ▸ List.mem_append_right handled ha1)
        · intro x hx
          rcases List.mem_append.mp hx with hx1 | hx2
          · exact hdis1 x hx1
          · intro hxh
            exact hdis2 x hx2 (hh1 ▸ List.mem_append_left _ hxh)
        · rw [hres1, hres2, List.filter_append]
        · intro x hx
          rcases List.mem_append.mp hx with hx1 | hx2
          · exact ⟨c, List.mem_cons_self c cs, hreach1 x hx1⟩
          · obtain ⟨c', hc', hr⟩ := hreach2 x hx2
            exact ⟨c', List.mem_cons_of_mem _ hc', hr⟩

/-- One call inherits the decomposition invariant from the child loop at the
next smaller fuel. -/
theorem decompF_step (store : Store) (crit : Criteria) (fuel : Nat)
    (hL : DecompL store crit fuel) : DecompF store crit (fuel + 1) := by
  intro nid depth handled h res heq
  rw [fcf_succ] at heq
  by_cases hmem : nid ∈ handled
  · rw [if_pos hmem] at heq
    simp only [Option.some.injEq, Prod.mk.injEq] at heq
    obtain ⟨rfl, rfl⟩ := heq
    exact ⟨[], by simp, List.nodup_nil, by simp, by simp, by simp⟩
  · rw [if_neg hmem] at heq
    by_cases hd : depth = 0
    · rw [if_pos hd] at heq
      simp only [Option.some.injEq, Prod.mk.injEq] at heq
      obtain ⟨rfl, rfl⟩ := heq
      refine ⟨[nid], rfl, List.nodup_singleton nid, ?_, ?_, ?_⟩
      · intro x hx
        rw [List.mem_singleton] at hx
        exact hx ▸ hmem
      · cases hm : matchesCrit store nid crit <;> simp [List.filter_cons, hm]
      · intro x hx
        rw [List.mem_singleton] at hx
        subst hx
        exact ReachesD.refl x depth
    · rw [if_neg hd] at heq
      split at heq
      · exact absurd heq (by simp)
      · rename_i h1 res1 hfl
        simp only [Option.some.injEq, Prod.mk.injEq] at heq
        obtain ⟨rfl, rfl⟩ := heq
        obtain ⟨fL, hhL, hndL, hdisL, hresL, hreachL⟩ :=
          hL (childIds store nid) (depth - 1) (handled ++ [nid]) h1 res1 hfl
        have hnidL : nid ∉ fL := by
          intro hin
          exact hdisL nid hin (List.mem_append_right handled (List.mem_singleton.mpr rfl))
        refine ⟨nid :: fL, ?_, ?_, ?_, ?_, ?_⟩
        · rw [hhL, List.append_assoc, List.singleton_append]
        · exact List.nodup_cons.mpr ⟨hnidL, hndL⟩
        · intro x hx
          rcases List.mem_cons.mp hx with hx0 | hxL
          · exact hx0 ▸ hmem
          · intro hxh
            exact hdisL x hxL (List.mem_append_left _ hxh)
        · rw [hresL]
          cases hm : matchesCrit store nid crit <;> simp [List.filter_cons, hm]
        · intro x hx
          rcases List.mem_cons.mp hx with hx0 | hxL
          · subst hx0
            exact ReachesD.refl x depth
          · obtain ⟨c, hc, hr⟩ := hreachL x hxL
            exact ReachesD.head hd hc hr

/-- The decomposition invariant holds at every fuel level. -/
theorem decompF_all (store : Store) (crit : Criteria) :
    ∀ fuel, DecompF store crit fuel := by
  intro fuel
  induction fuel with
  | zero =>
    intro nid depth handled h res heq
    rw [fcf_zero] at heq
    exact absurd heq (by simp)
  | succ n ih => exact decompF_step store crit n (decompL_step store crit n ih)

/-- The child-loop decomposition invariant holds at every fuel level. -/
theorem decompL_all (store : Store) (crit : Criteria) :
    ∀ fuel, DecompL store crit fuel :=
  fun fuel => decompL_step store crit fuel (decompF_all store crit fuel)

/-- Closure invariant of a call at unbounded (negative) depth: the node is
visited, and every node freshly visited has all its children visited. -/
def ClosedF (store : Store) (crit : Criteria) (fuel : Nat) : Prop :=
  ∀ nid depth handled h res, depth < 0 →
    find_children_fuel store crit fuel nid depth handled = some (h, res) →
    nid ∈ h ∧ ∀ x ∈ h, x ∉ handled → ∀ y ∈ childIds store x, y ∈ h

/-- Closure invariant of the child loop at unbounded depth. -/
def ClosedL (store : Store) (crit : Criteria) (fuel : Nat) : Prop :=
  ∀ cs depth handled h res, depth < 0 →
    find_children_list store crit fuel cs depth handled = some (h, res) →
    (∀ c ∈ cs, c ∈ h) ∧ handled ⊆ h ∧
      ∀ x ∈ h, x ∉ handled → ∀ y ∈ childIds store x, y ∈ h

/-- The child loop inherits the closure invariant from the call. -/
theorem closedL_step (store : Store) (crit : Criteria) (fuel : Nat)
    (hF : ClosedF store crit fuel) : ClosedL store crit fuel := by
  intro cs
  induction cs with
  | nil =>
    intro depth handled h res _ heq
    rw [fcl_nil] at heq
    simp only [Option.some.injEq, Prod.mk.injEq] at heq
    obtain ⟨rfl, rfl⟩ := heq
    exact ⟨by simp, fun x hx => hx, fun x hx hnx => absurd hx hnx⟩
  | cons c cs ih =>
    intro depth handled h res hneg heq
    rw [fcl_cons] at heq
    split at heq
    · exact absurd heq (by simp)
    · rename_i h1 res1 hc
      split at heq
      · exact absurd heq (by simp)
      · rename_i h2 res2 hl
        simp only [Option.some.injEq, Prod.mk.injEq] at heq
        obtain ⟨rfl, rfl⟩ := heq
        obtain ⟨hc1, hclose1⟩ := hF c depth handled h1 res1 hneg hc
        obtain ⟨hcs2, hsub2, hclose2⟩ := ih depth h1 h2 res2 hneg hl
        obtain ⟨f1, hh1, _, _, _, _⟩ := decompF_all store crit fuel c depth handled h1 res1 hc
        have hsub1 : handled ⊆ h1 := by
          rw [hh1]
          exact fun x hx => List.mem_append_left _ hx
        refine ⟨?_, fun x hx => hsub2 (hsub1 hx), ?_⟩
        · intro c' hc'
          rcases List.mem_cons.mp hc' with rfl | hcs
          · exact hsub2 hc1
          · exact hcs2 c' hcs
        · intro x hx hnx
          by_cases hx1 : x ∈ h1
          · intro y hy
            exact hsub2 (hclose1 x hx1 hnx y hy)
          · exact hclose2 x hx hx1

/-- One call inherits the closure invariant from the child loop. -/
theorem closedF_step (store : Store) (crit : Criteria) (fuel : Nat)
    (hL : ClosedL store crit fuel) : ClosedF store crit (fuel + 1) := by
  intro nid depth handled h res hneg heq
  rw [fcf_succ] at heq
  by_cases hmem : nid ∈ handled
  · rw [if_pos hmem] at heq
    simp only [Option.some.injEq, Prod.mk.injEq] at heq
    obtain ⟨rfl, rfl⟩ := heq
    exact ⟨hmem, fun x hx hnx => absurd hx hnx⟩
  · rw [if_neg hmem, if_neg (by omega : ¬ depth = 0)] at heq
    split at heq
    · exact absurd heq (by simp)
    · rename_i h1 res1 hfl
      simp only [Option.some.injEq, Prod.mk.injEq] at heq
      obtain ⟨rfl, rfl⟩ := heq
      obtain ⟨hcs, hsub, hclose⟩ :=
        hL (childIds store nid) (depth - 1) (handled ++ [nid]) h1 res1 (by omega) hfl
      have hnid1 : nid ∈ h1 :=
        hsub (List.mem_append_right handled (List.mem_singleton.mpr rfl))
      refine ⟨hnid1, ?_⟩
      intro x hx hnx
      by_cases hxnid : x = nid
      · subst hxnid
        exact fun y hy => hcs y hy
      · refine hclose x hx ?_
        intro hx1
        rcases List.mem_append.mp hx1 with hxh | hxn
        · exact hnx hxh
        · exact hxnid (List.mem_singleton.mp hxn)

/-- The closure invariant holds at every fuel level. -/
theorem closedF_all (store : Store) (crit : Criteria) :
    ∀ fuel, ClosedF store crit fuel := by
  intro fuel
  induction fuel with
  | zero =>
    intro nid depth handled h res _ heq
    rw [fcf_zero] at heq
    exact absurd heq (by simp)
  | succ n ih => exact closedF_step store crit n (closedL_step store crit n ih)

/-- Count of identifiers of the store not yet visited. -/
def unvisited (store : Store) (handled : List Nat) : Nat :=
  ((allIds store).filter (fun x => decide (x ∉ handled))).length

/-- A pointwise implication between filters bounds their lengths. -/
theorem filter_length_mono (l : List Nat) (p q : Nat → Bool)
    (himp : ∀ x, p x = true → q x = true) :
    (l.filter p).length ≤ (l.filter q).length := by
  induction l with
  | nil => exact Nat.le_refl 0
  | cons a rest ih =>
    by_cases hp : p a = true
    · simp [List.filter_cons, hp, himp a hp]
      omega
    · rcases hq : q a with _ | _
      · simp [List.filter_cons, Bool.of_not_eq_true hp, hq]
        exact ih
      · simp [List.filter_cons, Bool.of_not_eq_true hp, hq]
        omega

/-- A strict version: some member passes `q` but not `p`. -/
theorem filter_length_strict (l : List Nat) (p q : Nat → Bool) (a : Nat)
    (himp : ∀ x, p x = true → q x = true) (ha : a ∈ l)
    (hap : p a = false) (haq : q a = true) :
    (l.filter p).length < (l.filter q).length := by
  induction l with
  | nil => exact absurd ha (List.not_mem_nil a)
  | cons b rest ih =>
    rcases List.mem_cons.mp ha with rfl | hmem
    · simp [List.filter_cons, hap, haq]
      have := filter_length_mono rest p q himp
      omega
    · by_cases hp : p b = true
      · simp [List.filter_cons, hp, himp b hp]
        exact ih hmem
      · rcases hq : q b with _ | _
        · simp [List.filter_cons, Bool.of_not_eq_true hp, hq]
          exact ih hmem
        · simp [List.filter_cons, Bool.of_not_eq_true hp, hq]
          have := ih hmem
          omega

/-- Growing the visited list cannot increase the unvisited count. -/
theorem unvisited_mono (store : Store) (handled handled' : List Nat)
    (hsub : handled ⊆ handled') :
    unvisited store handled' ≤ unvisited store handled := by
  apply filter_length_mono
  intro x hx
  simp only [decide_eq_true_eq] at hx ⊢
  exact fun hxh => hx (hsub hxh)

/-- Visiting an identifier of the store strictly decreases the unvisited
count. -/
theorem unvisited_strict (store : Store) (handled : List Nat) (nid : Nat)
    (hin : nid ∈ allIds store) (hmem : nid ∉ handled) :
    unvisited store (handled ++ [nid]) < unvisited store handled := by
  apply filter_length_strict _ _ _ nid _ hin
  · simp
  · simpa using hmem
  · intro x hx
    simp only [decide_eq_true_eq, List.mem_append, List.mem_singleton] at hx ⊢
    exact fun hxh => hx (Or.inl hxh)

/-- An identifier outside the store's support has no children. -/
theorem childIds_of_not_mem (store : Store) (nid : Nat) (hnin : nid ∉ allIds store) :
    childIds store nid = [] := by
  have hkey : nid ∉ store.map (fun kv => kv.1) := by
    intro h
    exact hnin (List.mem_append_left _ h)
  have hfind : store.find? (fun kv => kv.1 == nid) = none := by
    rw [List.find?_eq_none]
    intro kv hkv hbeq
    apply hkey
    rw [List.mem_map]
    exact ⟨kv, hkv, by simpa using hbeq⟩
  simp [childIds, nodeAttrs, hfind]

/-- Fuel sufficiency of a call: one more than the unvisited count always
completes. -/
def SuffF (store : Store) (crit : Criteria) (fuel : Nat) : Prop :=
  ∀ nid depth handled, unvisited store handled + 1 ≤ fuel →
    (find_children_fuel store crit fuel nid depth handled).isSome

/-- Fuel sufficiency of the child loop. -/
def SuffL (store : Store) (crit : Criteria) (fuel : Nat) : Prop :=
  ∀ cs depth handled, unvisited store handled + 1 ≤ fuel →
    (find_children_list store crit fuel cs depth handled).isSome

/-- The child loop inherits fuel sufficiency from the call. -/
theorem suffL_step (store : Store) (crit : Criteria) (fuel : Nat)
    (hF : SuffF store crit fuel) : SuffL store crit fuel := by
  intro cs
  induction cs with
  | nil =>
    intro depth handled _
    rw [fcl_nil]
    rfl
  | cons c cs ih =>
    intro depth handled hfuel
    rw [fcl_cons]
    have h1 := hF c depth handled hfuel
    rcases hc : find_children_fuel store crit fuel c depth handled with _ | ⟨h1', res1⟩
    · rw [hc] at h1
      exact absurd h1 (by simp)
    · obtain ⟨f1, hh1, _, _, _, _⟩ := decompF_all store crit fuel c depth handled h1' res1 hc
      have hsub : handled ⊆ h1' := by
        rw [hh1]
        exact fun x hx => List.mem_append_left _ hx
      have hfuel' : unvisited store h1' + 1 ≤ fuel :=
        Nat.le_trans (Nat.add_le_add_right (unvisited_mono store handled h1' hsub) 1) hfuel
      have h2 := ih depth h1' hfuel'
      rcases hl : find_children_list store crit fuel cs depth h1' with _ | ⟨h2', res2⟩
      · rw [hl] at h2
        exact absurd h2 (by simp)
      · simp [hc, hl]

/-- One call inherits fuel sufficiency from the child loop. -/
theorem suffF_step (store : Store) (crit : Criteria) (fuel : Nat)
    (hL : SuffL store crit fuel) : SuffF store crit (fuel + 1) := by
  intro nid depth handled hfuel
  rw [fcf_succ]
  by_cases hmem : nid ∈ handled
  · rw [if_pos hmem]
    rfl
  · rw [if_neg hmem]
    by_cases hd : depth = 0
    · rw [if_pos hd]
      rfl
    · rw [if_neg hd]
      have hlist : (find_children_list store crit fuel (childIds store nid) (depth - 1)
          (handled ++ [nid])).isSome := by
        by_cases hin : nid ∈ allIds store
        · apply hL
          have := unvisited_strict store handled nid hin hmem
          omega
        · rw [childIds_of_not_mem store nid hin, fcl_nil]
          rfl
      rcases hl : find_children_list store crit fuel (childIds store nid) (depth - 1)
          (handled ++ [nid]) with _ | ⟨h1, res1⟩
      · rw [hl] at hlist
        exact absurd hlist (by simp)
      · simp [hl]

/-- Fuel sufficiency holds at every fuel level. -/
theorem suffF_all (store : Store) (crit : Criteria) :
    ∀ fuel, SuffF store crit fuel := by
  intro fuel
  induction fuel with
  | zero =>
    intro nid depth handled hfuel
    exact absurd hfuel (by omega)
  | succ n ih => exact suffF_step store crit n (suffL_step store crit n ih)

/-- With the canonical fuel bound, `find_children` always completes from an
empty visited list. -/
theorem find_children_total (store : Store) (crit : Criteria) (root : Nat) (depth : Int) :
    ∃ h res, find_children_fuel store crit (fuelBound store) root depth [] = some (h, res) := by
  have hsuff := suffF_all store crit (fuelBound store) root depth []
  have hbase : unvisited store [] + 1 ≤ fuelBound store := by
    unfold unvisited fuelBound
    have : ((allIds store).filter (fun x => decide (x ∉ ([] : List Nat)))).length ≤
        (allIds store).length := List.length_filter_le _ _
    omega
  have := hsuff hbase
  rcases heq : find_children_fuel store crit (fuelBound store) root depth [] with _ | ⟨h, res⟩
  · rw [heq] at this
    exact absurd this (by simp)
  · exact ⟨h, res, rfl⟩

/-- At negative depth the depth-indexed reachability is plain reachability. -/
theorem reachesD_neg_to_reaches {store : Store} {x y : Nat} :
    ∀ {d : Int}, d < 0 → ReachesD store x y d → Reaches store x y := by
  intro d hneg h
  induction h with
  | refl a _ => exact Reaches.refl a
  | head _ hmem _ ih => exact Reaches.head hmem (ih (by omega))

/-- Plain reachability lifts to any negative depth. -/
theorem reaches_to_reachesD {store : Store} {x y : Nat} (h : Reaches store x y) :
    ∀ d : Int, d < 0 → ReachesD store x y d := by
  induction h with
  | refl a => exact fun d _ => ReachesD.refl a d
  | head hmem _ ih =>
    intro d hneg
    exact ReachesD.head (by omega) hmem (ih (d - 1) (by omega))

/-- Depth-indexed reachability at a nonnegative depth bounds the number of
steps by that depth. -/
theorem reachesD_to_reachesN {store : Store} {x y : Nat} :
    ∀ {d : Int}, ReachesD store x y d → ∀ n : Nat, d = (n : Int) → ReachesN store x y n := by
  intro d h
  induction h with
  | refl a _ =>
    intro n _
    exact ReachesN.refl a n
  | head hne hmem _ ih =>
    intro n hdn
    rename_i d' _
    have hn0 : n ≠ 0 := by
      intro h0
      rw [h0] at hdn
      exact hne (by omega)
    obtain ⟨m, rfl⟩ := Nat.exists_eq_succ_of_ne_zero hn0
    exact ReachesN.head hmem (ih m (by omega))

/-- Inside a closed visited set, reachability preserves membership. -/
theorem reaches_mem_closed {store : Store} {h : List Nat}
    (hclose : ∀ x ∈ h, ∀ y ∈ childIds store x, y ∈ h) :
    ∀ {a z : Nat}, Reaches store a z → a ∈ h → z ∈ h := by
  intro a z hr
  induction hr with
  | refl _ => exact fun ha => ha
  | head hmem _ ih => exact fun ha => ih (hclose _ ha _ hmem)

/-- Claim C4: for every store (cyclic graphs included), every criteria
dictionary and every depth, `find_children` with the canonical fuel bound
terminates (the fuel is never exhausted), the visited list records each node
instance at most once, and the result list contains each matching node at
most once. -/
theorem claim_C4 (store : Store) (crit : Criteria) (root : Nat) (depth : Int) :
    ∃ h res, find_children_fuel store crit (fuelBound store) root depth [] = some (h, res) ∧
      h.Nodup ∧ res.Nodup ∧ res ⊆ h := by
  obtain ⟨h, res, heq⟩ := find_children_total store crit root depth
  obtain ⟨fresh, hh, hnd, _, hres, _⟩ :=
    decompF_all store crit (fuelBound store) root depth [] h res heq
  rw [List.nil_append] at hh
  subst hh
  refine ⟨h, res, heq, hnd, ?_, ?_⟩
  · rw [hres]
    exact hnd.filter _
  · rw [hres]
    intro x hx
    exact (List.mem_filter.mp hx).1

/-- The concrete example of the specification: an `Algorithm` node 0 whose
`parameter` list holds `Parameter` nodes 1 (key "update_frequency") and 2
(key "damping_time"). -/
def exStore : Store :=
  [(0, [("node", .aStrList ["Algorithm"]), ("key", .aStr "mc_barostat"),
        ("type", .aStr "barostat"), ("parameter", .aNodeList [1, 2]),
        ("citation", .aNodeList [])]),
   (1, [("node", .aStrList ["Parameter"]), ("key", .aStr "update_frequency"),
        ("unit", .aStr "1/ns")]),
   (2, [("node", .aStrList ["Parameter"]), ("key", .aStr "damping_time"),
        ("unit", .aStr "m")])]

/-- The query `{"key": "damping_time"}`. -/
def qDamp : Criteria := [("key", [.prim "damping_time"])]

/-- The query `{"parameter": [{"key": "damping_time"}, {"key": "update_frequency"}]}`. -/
def qBoth : Criteria :=
  [("parameter", [.nested [("key", [.prim "damping_time"])],
                  .nested [("key", [.prim "update_frequency"])]])]

/-- The previous query with a third, non-matching required sub-criterion. -/
def qThree : Criteria :=
  [("parameter", [.nested [("key", [.prim "damping_time"])],
                  .nested [("key", [.prim "update_frequency"])],
                  .nested [("foo", [.prim "bar"])]])]

/-- Claim C5: at unbounded depth `find_children` returns exactly the
distinct nodes of the subgraph (receiver included) satisfying all criteria
keys, and on the specification's concrete example the three queries return
`[p2]`, `[a]` and `[]` respectively (OR across list elements, AND across
keys and across several requested values of one key). -/
theorem claim_C5 :
    (∀ (store : Store) (crit : Criteria) (root : Nat),
      ∃ h res,
        find_children_fuel store crit (fuelBound store) root (-1) [] = some (h, res) ∧
        ∀ x : Nat, x ∈ res ↔ Reaches store root x ∧ matchesCrit store x crit = true) ∧
    find_children exStore qDamp 0 (-1) = some [2] ∧
    find_children exStore qBoth 0 (-1) = some [0] ∧
    find_children exStore qThree 0 (-1) = some [] := by
  refine ⟨?_, ?_, ?_, ?_⟩
  · intro store crit root
    obtain ⟨h, res, heq⟩ := find_children_total store crit root (-1)
    obtain ⟨fresh, hh, hnd, _, hres, hreach⟩ :=
      decompF_all store crit (fuelBound store) root (-1) [] h res heq
    rw [List.nil_append] at hh
    subst hh
    obtain ⟨hroot, hclose⟩ :=
      closedF_all store crit (fuelBound store) root (-1) [] h res (by omega) heq
    refine ⟨h, res, heq, ?_⟩
    intro x
    constructor
    · intro hx
      rw [hres] at hx
      obtain ⟨hxh, hm⟩ := List.mem_filter.mp hx
      exact ⟨reachesD_neg_to_reaches (by omega) (hreach x hxh), hm⟩
    · rintro ⟨hr, hm⟩
      have hclose' : ∀ a ∈ h, ∀ y ∈ childIds store a, y ∈ h :=
        fun a ha => hclose a ha (List.not_mem_nil a)
      have hxh : x ∈ h := reaches_mem_closed hclose' hr hroot
      rw [hres]
      exact List.mem_filter.mpr ⟨hxh, hm⟩
  · simp [find_children, find_children_fuel, find_children_list, fuelBound, allIds,
      childIds, nodeAttrs, attrListOf, lookupField, fieldChildIds,
      matchesCrit, numFound, matchOne, nestedAny, exStore, qDamp]
  · simp [find_children, find_children_fuel, find_children_list, fuelBound, allIds,
      childIds, nodeAttrs, attrListOf, lookupField, fieldChildIds,
      matchesCrit, numFound, matchOne, nestedAny, exStore, qBoth]
  · simp [find_children, find_children_fuel, find_children_list, fuelBound, allIds,
      childIds, nodeAttrs, attrListOf, lookupField, fieldChildIds,
      matchesCrit, numFound, matchOne, nestedAny, exStore, qThree]

/-- Negative depths are interchangeable in a call. -/
def NegF (store : Store) (crit : Criteria) (fuel : Nat) : Prop :=
  ∀ nid handled (d d' : Int), d < 0 → d' < 0 →
    find_children_fuel store crit fuel nid d handled =
      find_children_fuel store crit fuel nid d' handled

/-- Negative depths are interchangeable in the child loop. -/
def NegL (store : Store) (crit : Criteria) (fuel : Nat) : Prop :=
  ∀ cs handled (d d' : Int), d < 0 → d' < 0 →
    find_children_list store crit fuel cs d handled =
      find_children_list store crit fuel cs d' handled

/-- The child loop inherits depth-irrelevance from the call. -/
theorem negL_step (store : Store) (crit : Criteria) (fuel : Nat)
    (hF : NegF store crit fuel) : NegL store crit fuel := by
  intro cs
  induction cs with
  | nil =>
    intro handled d d' _ _
    rw [fcl_nil, fcl_nil]
  | cons c cs ih =>
    intro handled d d' hd hd'
    rw [fcl_cons, fcl_cons, hF c handled d d' hd hd']
    rcases find_children_fuel store crit fuel c d' handled with _ | ⟨h1, res1⟩
    · rfl
    · show (match find_children_list store crit fuel cs d h1 with
          | none => none
          | some (h2, res2) => some (h2, res1 ++ res2)) =
        (match find_children_list store crit fuel cs d' h1 with
          | none => none
          | some (h2, res2) => some (h2, res1 ++ res2))
      rw [ih h1 d d' hd hd']

/-- One call inherits depth-irrelevance from the child loop. -/
theorem negF_step (store : Store) (crit : Criteria) (fuel : Nat)
    (hL : NegL store crit fuel) : NegF store crit (fuel + 1) := by
  intro nid handled d d' hd hd'
  rw [fcf_succ, fcf_succ]
  by_cases hmem : nid ∈ handled
  · rw [if_pos hmem, if_pos hmem]
  · rw [if_neg hmem, if_neg hmem, if_neg (by omega : ¬ d = 0), if_neg (by omega : ¬ d' = 0),
      hL (childIds store nid) (handled ++ [nid]) (d - 1) (d' - 1) (by omega) (by omega)]

/-- Depth-irrelevance of negative depths at every fuel level. -/
theorem negF_all (store : Store) (crit : Criteria) : ∀ fuel, NegF store crit fuel := by
  intro fuel
  induction fuel with
  | zero =>
    intro nid handled d d' _ _
    rw [fcf_zero, fcf_zero]
  | succ n ih => exact negF_step store crit n (negL_step store crit n ih)

/-- A depth-0 call on an unvisited node matches the receiver only without
descending. -/
theorem fcf_depth_zero (store : Store) (crit : Criteria) (fuel : Nat) (nid : Nat)
    (handled : List Nat) (hmem : nid ∉ handled) (hfuel : 0 < fuel) :
    find_children_fuel store crit fuel nid 0 handled =
      some (handled ++ [nid], if matchesCrit store nid crit then [nid] else []) := by
  obtain ⟨m, rfl⟩ := Nat.exists_eq_succ_of_ne_zero (by omega : fuel ≠ 0)
  rw [fcf_succ, if_neg hmem, if_pos rfl]

/-- The nested-criterion loop of `is_attr_present` is the OR, over the
attribute list, of a self-match of each node-valued attribute. -/
theorem nestedAny_eq_any (store : Store) (c : Criteria) (attrs : List AVal) :
    nestedAny store c attrs =
      attrs.any (fun a =>
        match a with
        | .aNode i => matchesCrit store i c
        | _ => false) := by
  induction attrs with
  | nil => simp [nestedAny]
  | cons a rest ih => cases a <;> simp [nestedAny, ih]

/-- Claim C6: negative depth means unbounded descent (any two negative
depths produce identical traversals), depth 0 matches the receiver only
without descending, depth `N` visits only nodes reachable within `N` steps,
and a nested dictionary criterion is decided by a depth-0 self-match of the
child node (whose result list is nonempty exactly when the child itself
matches), never expanding further. -/
theorem claim_C6 :
    (∀ (store : Store) (crit : Criteria) (fuel : Nat) (nid : Nat) (handled : List Nat)
      (d : Int), d < 0 →
      find_children_fuel store crit fuel nid d handled =
        find_children_fuel store crit fuel nid (-1) handled) ∧
    (∀ (store : Store) (crit : Criteria) (fuel : Nat) (nid : Nat) (handled : List Nat),
      nid ∉ handled → 0 < fuel →
      find_children_fuel store crit fuel nid 0 handled =
        some (handled ++ [nid], if matchesCrit store nid crit then [nid] else [])) ∧
    (∀ (store : Store) (crit : Criteria) (n : Nat) (root : Nat) (h res : List Nat),
      find_children_fuel store crit (fuelBound store) root (n : Int) [] = some (h, res) →
      ∀ x ∈ h, ReachesN store root x n) ∧
    (∀ (store : Store) (c : Criteria) (attrs : List AVal),
      nestedAny store c attrs =
        attrs.any (fun a =>
          match a with
          | .aNode i => matchesCrit store i c
          | _ => false)) ∧
    (∀ (store : Store) (c : Criteria) (cid : Nat) (fuel : Nat), 0 < fuel →
      (find_children_fuel store c fuel cid 0 []).map (fun p => decide (0 < p.2.length)) =
        some (matchesCrit store cid c)) := by
  refine ⟨?_, ?_, ?_, nestedAny_eq_any, ?_⟩
  · intro store crit fuel nid handled d hd
    exact negF_all store crit fuel nid handled d (-1) hd (by omega)
  · exact fun store crit fuel nid handled hmem hfuel =>
      fcf_depth_zero store crit fuel nid handled hmem hfuel
  · intro store crit n root h res heq
    obtain ⟨fresh, hh, _, _, _, hreach⟩ :=
      decompF_all store crit (fuelBound store) root (n : Int) [] h res heq
    rw [List.nil_append] at hh
    subst hh
    intro x hx
    exact reachesD_to_reachesN (hreach x hx) n rfl
  · intro store c cid fuel hfuel
    rw [fcf_depth_zero store c fuel cid [] (List.not_mem_nil cid) hfuel]
    cases hm : matchesCrit store cid c <;> simp [hm]

/-- Witness for claim C6 at the concrete example store: interchangeable
negative depths, the depth-0 self-match, a depth-1 bound on reached nodes,
the nested-criterion OR, and the depth-0 self-match equivalence for nested
criteria. -/
theorem claim_C6_witness :
    find_children_fuel exStore qDamp 6 0 (-5) [] =
      find_children_fuel exStore qDamp 6 0 (-1) [] ∧
    find_children_fuel exStore qDamp 6 0 0 [] = some ([0], []) ∧
    ReachesN exStore 0 2 1 ∧
    nestedAny exStore qDamp [AVal.aNode 1, AVal.aNode 2] =
      ([AVal.aNode 1, AVal.aNode 2].any (fun a =>
        match a with
        | .aNode i => matchesCrit exStore i qDamp
        | _ => false)) ∧
    (find_children_fuel exStore qBoth 6 2 0 []).map (fun p => decide (0 < p.2.length)) =
      some (matchesCrit exStore 2 qBoth) := by
  refine ⟨claim_C6.1 exStore qDamp 6 0 [] (-5) (by norm_num), ?_, ?_,
    claim_C6.2.2.2.1 exStore qDamp [AVal.aNode 1, AVal.aNode 2],
    claim_C6.2.2.2.2 exStore qBoth 2 6 (by norm_num)⟩
  · have hb := claim_C6.2.1 exStore qDamp 6 0 [] (List.not_mem_nil 0) (by norm_num)
    rw [hb]
    simp [matchesCrit, numFound, matchOne, nestedAny, attrListOf, nodeAttrs,
      lookupField, exStore, qDamp]
  · refine claim_C6.2.2.1 exStore qDamp 1 0 [0, 1, 2] [2] ?_ 2 (by simp)
    simp [find_children_fuel, find_children_list, fuelBound, allIds,
      childIds, nodeAttrs, attrListOf, lookupField, fieldChildIds,
      matchesCrit, numFound, matchOne, nestedAny, exStore, qDamp]
